import Mathlib

set_option autoImplicit false

/-!
Shallow embedding of `prosstt/simulation.py` (count-data simulator for branching
single-cell differentiation trajectories) and verification of its specification.

Machine reals are idealised as `ℚ`; numpy arrays become `List (List ℚ)` (lists of
rows) or an explicit rows/cols/entry record; the implicit global random source
becomes explicit parameters carrying the drawn values; a raised-and-uncaught
Python exception becomes `Except`/`Option` failure values.
-/

namespace Prosstt

/-- Python `range(a, b)` with step 1 over integers: `[a, a+1, ..., b-1]`,
empty when `a ≥ b`. -/
def pythonRange (a b : ℤ) : List ℤ :=
  (List.range (b - a).toNat).map (fun i => a + i)

/-- numpy row access `M[i]`: rows `0 ≤ i < len` are taken directly, negative
indices `-len ≤ i < 0` wrap around to row `len + i`, and any other index
raises `IndexError`, modelled as `none`. -/
def np_row (M : List (List ℚ)) (i : ℤ) : Option (List ℚ) :=
  if 0 ≤ i ∧ i < (M.length : ℤ) then some (M.getD i.toNat [])
  else if -(M.length : ℤ) ≤ i ∧ i < 0 then some (M.getD ((M.length : ℤ) + i).toNat [])
  else none

/-- `get_pr(a, b, m)` from the source: `s2 = a*m**2 + b*m`,
`p = (s2-m)/s2`, `r = m**2/(s2-m)`. -/
def get_pr (a b m : ℚ) : ℚ × ℚ :=
  let s2 := a * m ^ 2 + b * m
  ((s2 - m) / s2, m ^ 2 / (s2 - m))

/-- numpy row read `M[i]` where an `IndexError` would abort: total version
returning `[]` out of range (only used at indices where the source cannot
raise). -/
def np_get (M : List (List ℚ)) (i : ℤ) : List ℚ :=
  (np_row M i).getD []

/-- numpy row write `W[i] = row` (in-range and wrap-around negative indices;
out-of-range writes raise in numpy and are never reached by the source). -/
def np_set (W : List (List ℚ)) (i : ℤ) (row : List ℚ) : List (List ℚ) :=
  if 0 ≤ i ∧ i < (W.length : ℤ) then W.set i.toNat row
  else if -(W.length : ℤ) ≤ i ∧ i < 0 then W.set ((W.length : ℤ) + i).toNat row
  else W

/-- `test_correlation(W, k, cutoff)` from the source: iterates
`for i in range(k-1, 0)` and returns True as soon as
`sp.stats.pearsonr(W[k], W[i])[0] > cutoff`. The Pearson coefficient (whose
value needs square roots) is abstracted as an oracle `pear`; the claims at
stake only concern which pairs get tested. -/
def test_correlation (pear : List ℚ → List ℚ → ℚ) (W : List (List ℚ))
    (k : ℤ) (cutoff : ℚ) : Bool :=
  (pythonRange (k - 1) 0).any (fun i => pear (np_get W k) (np_get W i) > cutoff)

/-- State of the `while k < K` loop in `simulate_W`: the matrix built so far
(K rows of length T in source orientation), the next column index `k`, and the
consecutive-rejection counter `loops`. -/
structure WState where
  W : List (List ℚ)
  k : ℤ
  loops : ℕ

/-- Outcome of one iteration of the `simulate_W` loop. -/
inductive WStep where
  | cont (st : WState)
  | restart
  | done (W : List (List ℚ))

/-- One iteration of the `while k < K` loop of `simulate_W(T, K, cutoff,
maxloops)`, with the fresh `diffusion(T)` draw passed in as `newdiff`:
`W[k] = diffusion(T)`; if `test_correlation(W, k, cutoff)` then `loops += 1;
continue` (which jumps to the loop head, past the `loops > maxloops` test);
else `loops = 0; k += 1`, after which `if loops > maxloops: return
simulate_W(T)` is the restart; when `k < K` fails the loop exits and the
transpose of `W` is returned. -/
def simulate_W_step (pear : List ℚ → List ℚ → ℚ) (K : ℤ) (cutoff : ℚ)
    (maxloops : ℕ) (st : WState) (newdiff : List ℚ) : WStep :=
  if st.k < K then
    let W' := np_set st.W st.k newdiff
    if test_correlation pear W' st.k cutoff then
      WStep.cont ⟨W', st.k, st.loops + 1⟩
    else
      let st' : WState := ⟨W', st.k + 1, 0⟩
      if st'.loops > maxloops then WStep.restart
      else WStep.cont st'
  else WStep.done st.W.transpose

/-- The mean lookup shared by `sample_data` and
`sample_data_with_absolute_times`:
`try: mu = M[t - T_off][g]` / `except IndexError: mu = M[-1][g]`, modelled at
row level (`i = t - T_off`): the row actually read is `M[i]` when that does not
raise, and the fallback row `M[-1]` when it does. -/
def mean_row (M : List (List ℚ)) (i : ℤ) : List ℚ :=
  match np_row M i with
  | some r => r
  | none => (np_row M (-1)).getD []

/-- C4: for `m > 0` and `a*m + b > 1`, `get_pr` returns the formula values,
`0 < p < 1`, `r > 0`, and the negative-binomial mean `p*r/(1-p)` and variance
`p*r/(1-p)^2` recover `m` and `a*m^2 + b*m` exactly. -/
theorem get_pr_moments (a b m : ℚ) (hm : 0 < m) (hab : 1 < a * m + b) :
    (get_pr a b m).1 = (a * m ^ 2 + b * m - m) / (a * m ^ 2 + b * m) ∧
    (get_pr a b m).2 = m ^ 2 / (a * m ^ 2 + b * m - m) ∧
    0 < (get_pr a b m).1 ∧ (get_pr a b m).1 < 1 ∧ 0 < (get_pr a b m).2 ∧
    (get_pr a b m).1 * (get_pr a b m).2 / (1 - (get_pr a b m).1) = m ∧
    (get_pr a b m).1 * (get_pr a b m).2 / (1 - (get_pr a b m).1) ^ 2
      = a * m ^ 2 + b * m := by
  have hs2m : m < a * m ^ 2 + b * m := by
    have h1 : m * 1 < m * (a * m + b) := by
      exact (mul_lt_mul_left hm).mpr hab
    calc m = m * 1 := by ring
    _ < m * (a * m + b) := h1
    _ = a * m ^ 2 + b * m := by ring
  have hs2 : 0 < a * m ^ 2 + b * m := lt_trans hm hs2m
  have hdiff : 0 < a * m ^ 2 + b * m - m := by linarith
  have hp : (get_pr a b m).1 = (a * m ^ 2 + b * m - m) / (a * m ^ 2 + b * m) := rfl
  have hr : (get_pr a b m).2 = m ^ 2 / (a * m ^ 2 + b * m - m) := rfl
  refine ⟨hp, hr, ?_, ?_, ?_, ?_, ?_⟩
  · rw [hp]; exact div_pos hdiff hs2
  · rw [hp]
    rw [div_lt_one hs2]
    linarith
  · rw [hr]; exact div_pos (pow_pos hm 2) hdiff
  · rw [hp, hr]
    have h1mp : (1 : ℚ) - (a * m ^ 2 + b * m - m) / (a * m ^ 2 + b * m)
        = m / (a * m ^ 2 + b * m) := by
      field_simp
    rw [h1mp]
    field_simp
    ring
  · rw [hp, hr]
    have h1mp : (1 : ℚ) - (a * m ^ 2 + b * m - m) / (a * m ^ 2 + b * m)
        = m / (a * m ^ 2 + b * m) := by
      field_simp
    rw [h1mp]
    rw [div_pow]
    field_simp
    ring

/-- Witness for C4 at `a = 2`, `b = 0`, `m = 1`: hypotheses hold and the
moment identities follow. -/
theorem get_pr_moments_witness :
    (0 : ℚ) < 1 ∧ (1 : ℚ) < 2 * 1 + 0 ∧
    ((get_pr 2 0 1).1 * (get_pr 2 0 1).2 / (1 - (get_pr 2 0 1).1) = 1 ∧
     (get_pr 2 0 1).1 * (get_pr 2 0 1).2 / (1 - (get_pr 2 0 1).1) ^ 2
       = 2 * 1 ^ 2 + 0 * 1) :=
  ⟨by norm_num, by norm_num,
   ((get_pr_moments 2 0 1 (by norm_num) (by norm_num)).2.2.2.2.2.1),
   ((get_pr_moments 2 0 1 (by norm_num) (by norm_num)).2.2.2.2.2.2)⟩

/-- C1: the correlation test is a no-op. For every column index `k ≥ 1` the
loop `for i in range(k-1, 0)` is empty, so `test_correlation` returns False
whatever the matrix, the cutoff, or the Pearson values — even a perfectly
correlated duplicate column is accepted, so `simulate_W`'s output carries no
pairwise-correlation bound. -/
theorem test_correlation_always_false (pear : List ℚ → List ℚ → ℚ)
    (W : List (List ℚ)) (k : ℤ) (cutoff : ℚ) (hk : 1 ≤ k) :
    test_correlation pear W k cutoff = false := by
  have h0 : (0 - (k - 1)).toNat = 0 := Int.toNat_of_nonpos (by omega)
  unfold test_correlation pythonRange
  rw [h0]
  rfl

/-- Witness for C1: with a Pearson oracle reporting perfect correlation 1 and
two identical rows in `W` (so the real coefficient would also be 1 > 0.2),
the test still reports no correlation for column 1. -/
theorem test_correlation_always_false_witness :
    (1 : ℤ) ≤ 1 ∧
    test_correlation (fun _ _ => 1) [[0, 1], [0, 1]] 1 (1/5) = false :=
  ⟨by decide,
   test_correlation_always_false (fun _ _ => 1) [[0, 1], [0, 1]] 1 (1/5)
     (by decide)⟩

/-- C3: the restart branch of `simulate_W` is unreachable. On a rejection the
`continue` skips the `loops > maxloops` test, and on an acceptance `loops` has
just been reset to 0, so no iteration ever returns the restart — the
rejection counter can grow past `maxloops` without the matrix being
discarded. -/
theorem simulate_W_step_never_restarts (pear : List ℚ → List ℚ → ℚ)
    (K : ℤ) (cutoff : ℚ) (maxloops : ℕ) (st : WState) (newdiff : List ℚ) :
    simulate_W_step pear K cutoff maxloops st newdiff ≠ WStep.restart := by
  unfold simulate_W_step
  by_cases h1 : st.k < K
  · simp only [h1, if_true]
    by_cases h2 : test_correlation pear (np_set st.W st.k newdiff) st.k cutoff
    · simp only [h2, if_true]
      intro h
      cases h
    · simp only [h2]
      have h3 : ¬ ((0 : ℕ) > maxloops) := by omega
      simp only [Bool.false_eq_true, if_false, h3, if_neg]
      intro h
      cases h
  · simp only [h1, if_false]
    intro h
    cases h

/-- C6: when the requested row index `i = t - T_off` is at least the number of
rows of the branch matrix, the lookup raises `IndexError` and the fallback
returns the last row `M[-1]`, so the cell is still produced from the branch's
final means. -/
theorem mean_row_clamps_to_last (M : List (List ℚ)) (i : ℤ)
    (hM : 1 ≤ M.length) (hi : (M.length : ℤ) ≤ i) :
    mean_row M i = M.getD (M.length - 1) [] := by
  have hraise : np_row M i = none := by
    unfold np_row
    rw [if_neg (by omega), if_neg (by omega)]
  have hlast : np_row M (-1) = some (M.getD (M.length - 1) []) := by
    have hidx : ((M.length : ℤ) + -1).toNat = M.length - 1 := by omega
    unfold np_row
    rw [if_neg (by omega), if_pos (by omega), hidx]
  unfold mean_row
  rw [hraise, hlast]
  rfl

/-- Witness for C6: a 2-row branch matrix read at row index 5 yields its last
row. -/
theorem mean_row_clamps_to_last_witness :
    1 ≤ ([[(1 : ℚ)], [2]] : List (List ℚ)).length ∧
    ((([[(1 : ℚ)], [2]] : List (List ℚ)).length : ℤ) ≤ 5) ∧
    mean_row [[(1 : ℚ)], [2]] 5
      = ([[(1 : ℚ)], [2]] : List (List ℚ)).getD
          (([[(1 : ℚ)], [2]] : List (List ℚ)).length - 1) [] ∧
    mean_row [[(1 : ℚ)], [2]] 5 = [2] :=
  ⟨by decide, by decide,
   mean_row_clamps_to_last [[(1 : ℚ)], [2]] 5 (by decide) (by decide),
   by decide⟩

/-- C10 counterexample: the last-row fallback does not fire only for indices
at or beyond the row count — at row index -3 on a 2-row matrix (so
`i < rows`), `M[i]` raises `IndexError` and the fallback fires, returning the
last row. -/
theorem mean_row_neg_fallback_cex :
    (-3 : ℤ) < (([[(1 : ℚ)], [2]] : List (List ℚ)).length : ℤ) ∧
    np_row [[(1 : ℚ)], [2]] (-3) = none ∧
    mean_row [[(1 : ℚ)], [2]] (-3) = [2] := by
  decide

/-- C10 amended: the fallback fires exactly when `i ≥ rows` or `i < -rows`;
for every negative index with `-rows ≤ i < 0` no fallback and no error occurs
and the row is silently read from position `rows + i`, counted back from the
end of the branch matrix. -/
theorem mean_row_negative_wraps (M : List (List ℚ)) (i : ℤ) :
    (np_row M i = none ↔ ((M.length : ℤ) ≤ i ∨ i < -(M.length : ℤ))) ∧
    (-(M.length : ℤ) ≤ i → i < 0 →
      mean_row M i = M.getD ((M.length : ℤ) + i).toNat []) := by
  constructor
  · unfold np_row
    constructor
    · intro h
      by_contra hc
      push_neg at hc
      rcases lt_or_le i 0 with h0 | h0
      · rw [if_neg (by omega), if_pos (by omega)] at h
        cases h
      · rw [if_pos (by omega)] at h
        cases h
    · intro h
      rw [if_neg (by omega), if_neg (by omega)]
  · intro h1 h2
    have hsome : np_row M i = some (M.getD ((M.length : ℤ) + i).toNat []) := by
      unfold np_row
      rw [if_neg (by omega), if_pos (by omega)]
    unfold mean_row
    rw [hsome]

/-- Witness for C10 amended: row index -1 on a 2-row matrix reads row
`2 + (-1) = 1` with no fallback. -/
theorem mean_row_negative_wraps_witness :
    mean_row [[(1 : ℚ)], [2]] (-1)
      = ([[(1 : ℚ)], [2]] : List (List ℚ)).getD
          (((([[(1 : ℚ)], [2]] : List (List ℚ)).length : ℤ) + (-1)).toNat) [] ∧
    mean_row [[(1 : ℚ)], [2]] (-1) = [2] :=
  ⟨(mean_row_negative_wraps [[(1 : ℚ)], [2]] (-1)).2 (by decide) (by decide),
   by decide⟩

/-- numpy `.astype(int)` on a float: truncation toward zero. -/
def astype_int (q : ℚ) : ℤ :=
  if 0 ≤ q then ⌊q⌋ else ⌈q⌉

/-- `collect_timestamps(timepoint, n, Tmax, t_s)` with the `n` normal draws
around `timepoint` (scale `t_s`) passed in as `draws`:
`timestamps = timestamps.astype(int)`, then `timestamps[timestamps < 0] = 0`,
then `timestamps[timestamps >= Tmax] = Tmax - 1`. -/
def collect_timestamps (draws : List ℚ) (Tmax : ℤ) : List ℤ :=
  let ts := draws.map astype_int
  let ts := ts.map (fun t => if t < 0 then 0 else t)
  ts.map (fun t => if t ≥ Tmax then Tmax - 1 else t)

/-- `belongs_to(timezone, branch)` from the source. -/
def belongs_to (timezone branch : ℤ × ℤ) : Bool :=
  timezone.1 ≥ branch.1 && timezone.2 ≤ branch.2

/-- `assign_branches(branch_times, timezone)`: builds `res = defaultdict(list)`
with `res[i]` listing, in key order, every branch key `k` whose interval
`branch_times[k]` contains timezone `i`, for `0 ≤ i < len(timezone)`; looked
up at any other key the defaultdict yields `[]`. `branch_times` is the dict as
a key-ordered association list. -/
def assign_branches (branch_times : List (ℕ × (ℤ × ℤ)))
    (timezone : List (ℤ × ℤ)) : ℤ → List ℕ :=
  fun i =>
    if h : 0 ≤ i ∧ i.toNat < timezone.length then
      (branch_times.filter
        (fun kb => belongs_to (timezone.get ⟨i.toNat, h.2⟩) kb.2)).map Prod.fst
    else []

/-- The scan loop of `pick_branch`: `b = -1`, then
`for i in range(len(timezone)): if t >= timezone[i][0] and t <= timezone[i][1]:
b = i; break`; returns the final `b`, with `i0` the index of the first
interval still in the list. -/
def scan_zone (t : ℤ) : List (ℤ × ℤ) → ℤ → ℤ
  | [], _ => -1
  | z :: rest, i0 => if t ≥ z.1 && t ≤ z.2 then i0 else scan_zone t rest (i0 + 1)

/-- `pick_branch(t, timezone, assignments)`: scan for the first interval
containing `t` (else `b` stays -1), then `possibilities = assignments[b]` and
`return rng.choice(possibilities)`. On an empty list `rng.choice` raises
`IndexError`, which the function catches, prints diagnostics, and falls off
the end returning Python `None` — modelled as `none`. The random pick is an
arbitrary index `choice` reduced mod the length. -/
def pick_branch (t : ℤ) (timezone : List (ℤ × ℤ)) (assignments : ℤ → List ℕ)
    (choice : ℕ) : Option ℕ :=
  let b : ℤ := scan_zone t timezone 0
  let possibilities := assignments b
  match possibilities with
  | [] => none
  | _ :: _ => some (possibilities.getD (choice % possibilities.length) 0)

/-- Every second component of `l.zip (l.map f)` is `f` of the first. -/
theorem zip_map_snd {α β : Type} (f : α → β) (l : List α) :
    ∀ p ∈ l.zip (l.map f), p.2 = f p.1 := by
  induction l with
  | nil => intro p hp; cases hp
  | cons a tl ih =>
    intro p hp
    rw [List.map_cons, List.zip_cons_cons] at hp
    rcases List.mem_cons.mp hp with h | h
    · rw [h]
    · exact ih p h

/-- The first vectorized clamp of `collect_timestamps`:
`timestamps[timestamps < 0] = 0` at the level of one entry. -/
def clamp0 (t : ℤ) : ℤ := if t < 0 then 0 else t

/-- The second vectorized clamp of `collect_timestamps`:
`timestamps[timestamps >= Tmax] = Tmax - 1` at the level of one entry. -/
def clampT (Tmax t : ℤ) : ℤ := if t ≥ Tmax then Tmax - 1 else t

/-- `collect_timestamps` as a single map of the composed per-entry clamps. -/
theorem collect_timestamps_eq_map (draws : List ℚ) (Tmax : ℤ) :
    collect_timestamps draws Tmax
      = draws.map (fun q => clampT Tmax (clamp0 (astype_int q))) := by
  unfold collect_timestamps clampT clamp0
  rw [List.map_map, List.map_map]
  rfl

/-- Truncation toward zero of a nonpositive rational is nonpositive. -/
theorem astype_int_nonpos {q : ℚ} (h : q ≤ 0) : astype_int q ≤ 0 := by
  unfold astype_int
  by_cases h0 : 0 ≤ q
  · rw [if_pos h0]
    calc ⌊q⌋ ≤ ⌊(0 : ℚ)⌋ := Int.floor_le_floor h
    _ = 0 := by simp
  · rw [if_neg h0]
    exact Int.ceil_le.mpr (by exact_mod_cast h)

/-- Truncation toward zero of a rational at least a nonnegative integer
bound stays at least that bound. -/
theorem astype_int_ge {q : ℚ} {n : ℤ} (hn : 0 ≤ n) (h : (n : ℚ) ≤ q) :
    n ≤ astype_int q := by
  have hq0 : (0 : ℚ) ≤ q := le_trans (by exact_mod_cast hn) h
  unfold astype_int
  rw [if_pos hq0]
  exact Int.le_floor.mpr h

/-- C8: for `Tmax ≥ 1`, `collect_timestamps` returns exactly one integer
pseudotime per draw, each in `[0, Tmax)`; a draw below 0 yields 0 and a draw
at or above `Tmax` yields `Tmax - 1`. -/
theorem collect_timestamps_spec (draws : List ℚ) (Tmax : ℤ) (hT : 1 ≤ Tmax) :
    (collect_timestamps draws Tmax).length = draws.length ∧
    (∀ t ∈ collect_timestamps draws Tmax, 0 ≤ t ∧ t < Tmax) ∧
    (∀ p ∈ draws.zip (collect_timestamps draws Tmax),
      (p.1 < 0 → p.2 = 0) ∧ ((Tmax : ℚ) ≤ p.1 → p.2 = Tmax - 1)) := by
  have hc0 : ∀ t : ℤ, 0 ≤ clamp0 t := by
    intro t
    unfold clamp0
    by_cases h : t < 0
    · rw [if_pos h]
    · rw [if_neg h]
      omega
  refine ⟨?_, ?_, ?_⟩
  · rw [collect_timestamps_eq_map, List.length_map]
  · intro t ht
    rw [collect_timestamps_eq_map] at ht
    rcases List.mem_map.mp ht with ⟨q, _, hq⟩
    rcases hq with rfl
    have h0 := hc0 (astype_int q)
    unfold clampT
    by_cases h : clamp0 (astype_int q) ≥ Tmax
    · rw [if_pos h]
      omega
    · rw [if_neg h]
      omega
  · intro p hp
    rw [collect_timestamps_eq_map] at hp
    have hp2 := zip_map_snd _ draws p hp
    constructor
    · intro hneg
      have htr : astype_int p.1 ≤ 0 := astype_int_nonpos (le_of_lt hneg)
      have hcl : clamp0 (astype_int p.1) = 0 := by
        unfold clamp0
        by_cases h : astype_int p.1 < 0
        · rw [if_pos h]
        · rw [if_neg h]
          omega
      rw [hp2, hcl]
      unfold clampT
      rw [if_neg (by omega)]
    · intro hbig
      have htr : Tmax ≤ astype_int p.1 := astype_int_ge (by omega) hbig
      have hcl : clamp0 (astype_int p.1) = astype_int p.1 := by
        unfold clamp0
        rw [if_neg (by omega)]
      rw [hp2, hcl]
      unfold clampT
      rw [if_pos (by omega)]

/-- Witness for C8: three draws `[-3/2, 5/2, 99]` with `Tmax = 3` give
`[0, 2, 2]`. -/
theorem collect_timestamps_spec_witness :
    (1 : ℤ) ≤ 3 ∧
    (collect_timestamps [-(3 : ℚ)/2, 5/2, 99] 3).length
      = ([-(3 : ℚ)/2, 5/2, 99] : List ℚ).length ∧
    collect_timestamps [-(3 : ℚ)/2, 5/2, 99] 3 = [0, 2, 2] :=
  ⟨by decide,
   (collect_timestamps_spec [-(3 : ℚ)/2, 5/2, 99] 3 (by decide)).1,
   by
    have hc : (⌈-(3/2 : ℚ)⌉ : ℤ) = -1 := by
      rw [Int.ceil_eq_iff]
      constructor <;> norm_num
    rw [collect_timestamps_eq_map]
    norm_num [astype_int, clamp0, clampT, hc]⟩

/-- C5 counterexample: for pseudotime 10 outside the single timezone
`[0, 5]`, `pick_branch` does not fail fatally: it returns the non-branch
sentinel `None` to its caller. -/
theorem pick_branch_sentinel_cex :
    pick_branch 10 [((0 : ℤ), 5)]
      (assign_branches [(0, ((0 : ℤ), 5))] [((0 : ℤ), 5)]) 0 = none := by
  decide

/-- C5 amended: whenever `t` lies outside every timezone interval, the scan
leaves `b = -1`, the defaultdict lookup yields the empty candidate list, and
`pick_branch` catches the resulting `IndexError` and returns the sentinel
`None` (no exception escapes; the caller only fails later, on
`branching_times[None]`). -/
theorem pick_branch_outside_none (t : ℤ) (timezone : List (ℤ × ℤ))
    (branch_times : List (ℕ × (ℤ × ℤ))) (choice : ℕ)
    (hout : ∀ z ∈ timezone, ¬ (z.1 ≤ t ∧ t ≤ z.2)) :
    pick_branch t timezone (assign_branches branch_times timezone) choice
      = none := by
  have hscan : ∀ l, (∀ z ∈ l, ¬ (z.1 ≤ t ∧ t ≤ z.2)) → ∀ i0, scan_zone t l i0 = -1 := by
    intro l
    induction l with
    | nil => intro _ i0; rfl
    | cons z rest ih =>
      intro h i0
      have hz := h z (List.mem_cons_self z rest)
      unfold scan_zone
      rw [if_neg (by simpa [decide_eq_true_eq] using hz)]
      exact ih (fun z' hz' => h z' (List.mem_cons_of_mem z hz')) (i0 + 1)
  have hb : scan_zone t timezone 0 = -1 := hscan timezone hout 0
  have hassign : assign_branches branch_times timezone (-1) = [] := by
    unfold assign_branches
    rw [dif_neg (by omega)]
  unfold pick_branch
  dsimp only
  rw [hb, hassign]

/-- Witness for C5 amended: pseudotime -7 outside both timezones yields the
`None` sentinel. -/
theorem pick_branch_outside_none_witness :
    (∀ z ∈ [((0 : ℤ), 5), (6, 9)], ¬ (z.1 ≤ -7 ∧ -7 ≤ z.2)) ∧
    pick_branch (-7) [((0 : ℤ), 5), (6, 9)]
      (assign_branches [(0, ((0 : ℤ), 5)), (1, (6, 9))] [((0 : ℤ), 5), (6, 9)]) 3
      = none :=
  ⟨by decide,
   pick_branch_outside_none (-7) [((0 : ℤ), 5), (6, 9)]
     [(0, ((0 : ℤ), 5)), (1, (6, 9))] 3 (by decide)⟩

/-- A numpy real matrix: row count, column count, entry function (entries
outside the shape are irrelevant). -/
structure RMat where
  rows : ℕ
  cols : ℕ
  entry : ℕ → ℕ → ℚ

/-- `bifurc_adjust(Mu_bif, Mu)` from the source:
`dif = Mu_bif[0] - Mu[-1]; Mu_bif = Mu_bif - dif` — `dif` is the per-gene row
`Mu_bif[0][g] - Mu[last][g]` and numpy broadcasting subtracts it from every
row of `Mu_bif`. -/
def bifurc_adjust (Mu_bif Mu : RMat) : RMat :=
  { rows := Mu_bif.rows, cols := Mu_bif.cols,
    entry := fun t g =>
      Mu_bif.entry t g - (Mu_bif.entry 0 g - Mu.entry (Mu.rows - 1) g) }

/-- `Ms[c] = M` on a family of per-branch matrices. -/
def upd_branch (Ms : ℕ → RMat) (c : ℕ) (M : RMat) : ℕ → RMat :=
  fun b => if b = c then M else Ms b

/-- The continuity pass of `simulate_branching_data`:
`for b in tree.topology: Ms[b[1]] = bifurc_adjust(Ms[b[1]], Ms[b[0]])`,
processing edges in list order. -/
def adjust_topology (Ms : ℕ → RMat) : List (ℕ × ℕ) → (ℕ → RMat)
  | [] => Ms
  | e :: rest =>
      adjust_topology (upd_branch Ms e.2 (bifurc_adjust (Ms e.2) (Ms e.1))) rest

/-- The fields of the external Tree object that `simulate_branching_data`
reads: `tree.branches`, `tree.time`, `tree.modules`, `tree.topology`. -/
structure SimTree where
  branches : ℕ
  time : List ℕ
  modules : List ℕ
  topology : List (ℕ × ℕ)

/-- `np.dot(W, H)`: the matrix product. -/
def np_dot (A B : RMat) : RMat :=
  ⟨A.rows, B.cols, fun i j => ∑ k ∈ Finset.range A.cols, A.entry i k * B.entry k j⟩

set_option linter.unusedVariables false in
/-- `simulate_branching_data(G, tree)` with the random draws supplied by
oracles: `Worac i` is the `simulate_W(Ts[i], Ks[i])` result for branch `i` and
`Horac i` the corresponding `simulate_H(Ks[i], G, groups)` result. The source
checks `all([l == branches for l in [len(Ts), len(Ks)]])` and on failure
prints and calls `sys.exit(1)` (modelled as `Except.error`); otherwise it
computes `Mu = np.dot(W, H)` per branch, runs the continuity pass over
`tree.topology`, and returns `(Ms, Ws)`. -/
def simulate_branching_data (G : ℕ) (tree : SimTree) (Worac Horac : ℕ → RMat) :
    Except String (List RMat × List RMat) :=
  if !([tree.time.length, tree.modules.length].all (fun l => l == tree.branches)) then
    Except.error "the parameters are not enough for the branches"
  else
    Except.ok
      ((List.range tree.branches).map
        (adjust_topology (fun i => np_dot (Worac i) (Horac i)) tree.topology),
       (List.range tree.branches).map Worac)

/-- After one `bifurc_adjust`, the child's first row equals the parent's last
row, gene by gene. -/
theorem bifurc_adjust_first_row (C P : RMat) (g : ℕ) :
    (bifurc_adjust C P).entry 0 g = P.entry (P.rows - 1) g := by
  unfold bifurc_adjust
  ring

/-- A branch that is never a child in the edge list is untouched by the
continuity pass. -/
theorem adjust_topology_not_child (L : List (ℕ × ℕ)) (x : ℕ)
    (hx : ∀ e ∈ L, e.2 ≠ x) : ∀ Ms, adjust_topology Ms L x = Ms x := by
  induction L with
  | nil => intro Ms; rfl
  | cons e rest ih =>
    intro Ms
    show adjust_topology (upd_branch Ms e.2 (bifurc_adjust (Ms e.2) (Ms e.1))) rest x
        = Ms x
    rw [ih (fun e' he' => hx e' (List.mem_cons_of_mem e he'))]
    unfold upd_branch
    rw [if_neg (Ne.symm (hx e (List.mem_cons_self e rest)))]

/-- C2 counterexample: three single-row branch matrices with entries 0, 1, 2
and the edge list `[(1, 2), (0, 1)]` presented out of topological order: after
the continuity pass, edge (1, 2) is violated — branch 2's first row is 1 while
branch 1's last row is 0. -/
def cexMs : ℕ → RMat := fun b => ⟨1, 1, fun _ _ => (b : ℚ)⟩

/-- C2 counterexample theorem (see `cexMs`): the continuity invariant fails
for a non-topological presentation order of the edges. -/
theorem adjust_topology_order_cex :
    ((1, 2) ∈ [((1 : ℕ), (2 : ℕ)), (0, 1)]) ∧
    (adjust_topology cexMs [(1, 2), (0, 1)] 2).entry 0 0
      = 1 ∧
    (adjust_topology cexMs [(1, 2), (0, 1)] 1).entry
      ((adjust_topology cexMs [(1, 2), (0, 1)] 1).rows - 1) 0 = 0 ∧
    (1 : ℚ) ≠ 0 := by
  refine ⟨by decide, ?_, ?_, by norm_num⟩
  · show (upd_branch
        (upd_branch cexMs 2 (bifurc_adjust (cexMs 2) (cexMs 1))) 1
        (bifurc_adjust
          ((upd_branch cexMs 2 (bifurc_adjust (cexMs 2) (cexMs 1))) 1)
          ((upd_branch cexMs 2 (bifurc_adjust (cexMs 2) (cexMs 1))) 0)) 2).entry 0 0 = 1
    norm_num [upd_branch, bifurc_adjust, cexMs]
  · show (upd_branch
        (upd_branch cexMs 2 (bifurc_adjust (cexMs 2) (cexMs 1))) 1
        (bifurc_adjust
          ((upd_branch cexMs 2 (bifurc_adjust (cexMs 2) (cexMs 1))) 1)
          ((upd_branch cexMs 2 (bifurc_adjust (cexMs 2) (cexMs 1))) 0)) 1).entry
        ((upd_branch
        (upd_branch cexMs 2 (bifurc_adjust (cexMs 2) (cexMs 1))) 1
        (bifurc_adjust
          ((upd_branch cexMs 2 (bifurc_adjust (cexMs 2) (cexMs 1))) 1)
          ((upd_branch cexMs 2 (bifurc_adjust (cexMs 2) (cexMs 1))) 0)) 1).rows - 1) 0 = 0
    norm_num [upd_branch, bifurc_adjust, cexMs]

/-- C2 amended: when the edge list is in topological order — no edge is a
self-loop, and no later edge's child equals an earlier edge's parent or child —
then after the continuity pass every edge `(p, c)` satisfies the continuity
invariant: the first row of the final child matrix equals the last row of the
final parent matrix, for every gene, whatever the pre-adjustment per-branch
matrices were. -/
theorem adjust_topology_continuity (L : List (ℕ × ℕ))
    (hself : ∀ e ∈ L, e.1 ≠ e.2)
    (horder : L.Pairwise (fun e e' => e'.2 ≠ e.1 ∧ e'.2 ≠ e.2)) :
    ∀ Ms, ∀ e ∈ L, ∀ g,
      (adjust_topology Ms L e.2).entry 0 g
        = (adjust_topology Ms L e.1).entry
            ((adjust_topology Ms L e.1).rows - 1) g := by
  induction L with
  | nil =>
    intro Ms e he
    cases he
  | cons e0 rest ih =>
    intro Ms e he g
    rw [List.pairwise_cons] at horder
    obtain ⟨hhead, hrest⟩ := horder
    rcases List.mem_cons.mp he with rfl | hmem
    · have hc : ∀ e' ∈ rest, e'.2 ≠ e.2 := fun e' h => (hhead e' h).2
      have hp : ∀ e' ∈ rest, e'.2 ≠ e.1 := fun e' h => (hhead e' h).1
      show (adjust_topology
          (upd_branch Ms e.2 (bifurc_adjust (Ms e.2) (Ms e.1))) rest e.2).entry 0 g
        = (adjust_topology
          (upd_branch Ms e.2 (bifurc_adjust (Ms e.2) (Ms e.1))) rest e.1).entry
            ((adjust_topology
              (upd_branch Ms e.2 (bifurc_adjust (Ms e.2) (Ms e.1))) rest e.1).rows - 1) g
      rw [adjust_topology_not_child rest e.2 hc,
          adjust_topology_not_child rest e.1 hp]
      unfold upd_branch
      rw [if_pos rfl, if_neg (hself e (List.mem_cons_self e rest))]
      exact bifurc_adjust_first_row (Ms e.2) (Ms e.1) g
    · have hself' : ∀ e' ∈ rest, e'.1 ≠ e'.2 :=
        fun e' h => hself e' (List.mem_cons_of_mem e0 h)
      show (adjust_topology
          (upd_branch Ms e0.2 (bifurc_adjust (Ms e0.2) (Ms e0.1))) rest e.2).entry 0 g
        = (adjust_topology
          (upd_branch Ms e0.2 (bifurc_adjust (Ms e0.2) (Ms e0.1))) rest e.1).entry
            ((adjust_topology
              (upd_branch Ms e0.2 (bifurc_adjust (Ms e0.2) (Ms e0.1))) rest e.1).rows - 1) g
      exact ih hself' hrest _ e hmem g

/-- Witness for C2 amended: the single edge (0, 1) on the concrete matrices
`cexMs` is in topological order and yields the continuity invariant. -/
theorem adjust_topology_continuity_witness :
    (∀ e ∈ [((0 : ℕ), (1 : ℕ))], e.1 ≠ e.2) ∧
    ([((0 : ℕ), (1 : ℕ))].Pairwise (fun e e' => e'.2 ≠ e.1 ∧ e'.2 ≠ e.2)) ∧
    (∀ e ∈ [((0 : ℕ), (1 : ℕ))], ∀ g,
      (adjust_topology cexMs [(0, 1)] e.2).entry 0 g
        = (adjust_topology cexMs [(0, 1)] e.1).entry
            ((adjust_topology cexMs [(0, 1)] e.1).rows - 1) g) ∧
    (adjust_topology cexMs [(0, 1)] 1).entry 0 0 = 0 :=
  ⟨by decide, by decide,
   adjust_topology_continuity [(0, 1)] (by decide) (by decide) cexMs,
   by
    show (upd_branch cexMs 1 (bifurc_adjust (cexMs 1) (cexMs 0)) 1).entry 0 0 = 0
    norm_num [upd_branch, bifurc_adjust, cexMs]⟩

/-- C7: `simulate_branching_data` fails if and only if `len(tree.time)` or
`len(tree.modules)` differs from `tree.branches`; on success it returns one
mean matrix and one module-trajectory matrix per branch. -/
theorem simulate_branching_data_validation (G : ℕ) (tree : SimTree)
    (Worac Horac : ℕ → RMat) :
    ((∃ msg, simulate_branching_data G tree Worac Horac = Except.error msg) ↔
      (tree.time.length ≠ tree.branches ∨ tree.modules.length ≠ tree.branches)) ∧
    (∀ Ms Ws, simulate_branching_data G tree Worac Horac = Except.ok (Ms, Ws) →
      Ms.length = tree.branches ∧ Ws.length = tree.branches) := by
  have hcond : ([tree.time.length, tree.modules.length].all
        (fun l => l == tree.branches)) = true
      ↔ (tree.time.length = tree.branches ∧ tree.modules.length = tree.branches) := by
    simp [List.all_cons]
  by_cases h : tree.time.length = tree.branches ∧ tree.modules.length = tree.branches
  · have hb : ([tree.time.length, tree.modules.length].all
        (fun l => l == tree.branches)) = true := hcond.mpr h
    have hrun : simulate_branching_data G tree Worac Horac
        = Except.ok
            ((List.range tree.branches).map
              (adjust_topology (fun i => np_dot (Worac i) (Horac i)) tree.topology),
             (List.range tree.branches).map Worac) := by
      unfold simulate_branching_data
      rw [hb]
      rfl
    constructor
    · constructor
      · intro hex
        rcases hex with ⟨msg, hmsg⟩
        rw [hrun] at hmsg
        cases hmsg
      · intro hor
        rcases hor with h1 | h1
        · exact absurd h.1 h1
        · exact absurd h.2 h1
    · intro Ms Ws hok
      rw [hrun] at hok
      injection hok with hpair
      injection hpair with hMs hWs
      constructor
      · rw [← hMs, List.length_map, List.length_range]
      · rw [← hWs, List.length_map, List.length_range]
  · have hb : ([tree.time.length, tree.modules.length].all
        (fun l => l == tree.branches)) = false := by
      cases hB : ([tree.time.length, tree.modules.length].all
        (fun l => l == tree.branches)) with
      | false => rfl
      | true => exact absurd (hcond.mp hB) h
    have hrun : simulate_branching_data G tree Worac Horac
        = Except.error "the parameters are not enough for the branches" := by
      unfold simulate_branching_data
      rw [hb]
      rfl
    constructor
    · constructor
      · intro _
        by_contra hc
        push_neg at hc
        exact h ⟨hc.1, hc.2⟩
      · intro _
        exact ⟨"the parameters are not enough for the branches", hrun⟩
    · intro Ms Ws hok
      rw [hrun] at hok
      cases hok

/-- A trivial 0-by-0 matrix oracle. -/
def zeroOrac : ℕ → RMat := fun _ => ⟨0, 0, fun _ _ => 0⟩

/-- Witness for C7: a tree declaring 2 branches but giving only one branch
length is rejected with the configuration error; a consistent 2-branch tree
succeeds with 2 mean matrices and 2 module matrices. -/
theorem simulate_branching_data_validation_witness :
    (([1].length ≠ 2 ∨ [1, 1].length ≠ 2) ∧
      ∃ msg, simulate_branching_data 1 ⟨2, [1], [1, 1], []⟩ zeroOrac zeroOrac
        = Except.error msg) ∧
    ((List.range 2).map (adjust_topology (fun i => np_dot (zeroOrac i) (zeroOrac i)) [])).length = 2 ∧
    ((List.range 2).map zeroOrac).length = 2 :=
  ⟨⟨Or.inl (by decide),
    (simulate_branching_data_validation 1 ⟨2, [1], [1, 1], []⟩ zeroOrac zeroOrac).1.mpr
      (Or.inl (by decide))⟩,
   (simulate_branching_data_validation 1 ⟨2, [1, 1], [1, 1], []⟩ zeroOrac zeroOrac).2
     ((List.range 2).map (adjust_topology (fun i => np_dot (zeroOrac i) (zeroOrac i)) []))
     ((List.range 2).map zeroOrac) rfl |>.1,
   (simulate_branching_data_validation 1 ⟨2, [1, 1], [1, 1], []⟩ zeroOrac zeroOrac).2
     ((List.range 2).map (adjust_topology (fun i => np_dot (zeroOrac i) (zeroOrac i)) []))
     ((List.range 2).map zeroOrac) rfl |>.2⟩

/-- `results[x].append(value)` on a list of lists (out-of-range `x` leaves the
list unchanged; in the source `x = rng.randrange(k)` is always in range). -/
def append_at : List (List ℕ) → ℕ → ℕ → List (List ℕ)
  | [], _, _ => []
  | l :: ls, 0, v => (l ++ [v]) :: ls
  | l :: ls, x + 1, v => l :: append_at ls x v

/-- `random_partition(k, iterable)`: `results = [[] for i in range(k)]`, then
for each value of the iterable, `x = rng.randrange(k); results[x].append(value)`.
The successive `randrange(k)` draws are supplied as `choices`, consumed in step
with the iterable. -/
def random_partition (k : ℕ) (iterable choices : List ℕ) : List (List ℕ) :=
  (iterable.zip choices).foldl (fun res p => append_at res p.2 p.1)
    (List.replicate k [])

set_option linter.unusedVariables false in
/-- `create_groups(K, G)`: `genes = np.random.permutation(G)` twice (`perm1`,
`perm2`), each partitioned by `random_partition(K, genes)` with its own draw
stream, then
`groups = [[i for subz in z for i in subz] for z in zip(groups1, groups2)]`:
the two partitions are flattened pairwise. -/
def create_groups (K G : ℕ) (perm1 choices1 perm2 choices2 : List ℕ) :
    List (List ℕ) :=
  ((random_partition K perm1 choices1).zip
    (random_partition K perm2 choices2)).map (fun z => z.1 ++ z.2)

/-- `append_at` preserves the number of groups. -/
theorem append_at_length (res : List (List ℕ)) (x v : ℕ) :
    (append_at res x v).length = res.length := by
  induction res generalizing x with
  | nil => rfl
  | cons l ls ih =>
    cases x with
    | zero => rfl
    | succ x => simpa [append_at] using ih x

/-- `append_at` at an index beyond the list is the identity. -/
theorem append_at_out (res : List (List ℕ)) (x v : ℕ)
    (hx : res.length ≤ x) : append_at res x v = res := by
  induction res generalizing x with
  | nil => rfl
  | cons l ls ih =>
    cases x with
    | zero => simp at hx
    | succ x =>
      show l :: append_at ls x v = l :: ls
      rw [ih x (by simpa using hx)]

/-- `append_at` leaves other groups untouched. -/
theorem append_at_getD_ne (res : List (List ℕ)) (x v j : ℕ) (hj : j ≠ x) :
    (append_at res x v).getD j [] = res.getD j [] := by
  induction res generalizing x j with
  | nil => rfl
  | cons l ls ih =>
    cases x with
    | zero =>
      cases j with
      | zero => exact absurd rfl hj
      | succ j => rfl
    | succ x =>
      cases j with
      | zero => rfl
      | succ j =>
        show (append_at ls x v).getD j [] = ls.getD j []
        exact ih x j (fun h => hj (by rw [h]))

/-- `append_at` appends the value to the addressed group. -/
theorem append_at_getD_eq (res : List (List ℕ)) (x v : ℕ)
    (hx : x < res.length) :
    (append_at res x v).getD x [] = res.getD x [] ++ [v] := by
  induction res generalizing x with
  | nil => simp at hx
  | cons l ls ih =>
    cases x with
    | zero => rfl
    | succ x =>
      show (append_at ls x v).getD x [] = ls.getD x [] ++ [v]
      exact ih x (by simpa using hx)

/-- Membership in some group is preserved by `append_at`. -/
theorem append_at_mem (res : List (List ℕ)) (x w j v : ℕ)
    (hv : v ∈ res.getD j []) : v ∈ (append_at res x w).getD j [] := by
  by_cases hj : j = x
  · subst hj
    by_cases hx : j < res.length
    · rw [append_at_getD_eq res j w hx]
      exact List.mem_append_left _ hv
    · rw [append_at_out res j w (by omega)]
      exact hv
  · rw [append_at_getD_ne res x w j hj]
    exact hv

/-- A member of a group after `append_at` was already there or is the
appended value. -/
theorem append_at_mem_inv (res : List (List ℕ)) (x w j v : ℕ)
    (hv : v ∈ (append_at res x w).getD j []) :
    v ∈ res.getD j [] ∨ v = w := by
  by_cases hj : j = x
  · subst hj
    by_cases hx : j < res.length
    · rw [append_at_getD_eq res j w hx] at hv
      rcases List.mem_append.mp hv with h | h
      · exact Or.inl h
      · exact Or.inr (List.mem_singleton.mp h)
    · rw [append_at_out res j w (by omega)] at hv
      exact Or.inl hv
  · rw [append_at_getD_ne res x w j hj] at hv
    exact Or.inl hv

/-- The partition fold preserves the number of groups. -/
theorem partition_foldl_length (pairs : List (ℕ × ℕ)) :
    ∀ res : List (List ℕ),
      (pairs.foldl (fun res p => append_at res p.2 p.1) res).length
        = res.length := by
  induction pairs with
  | nil => intro res; rfl
  | cons p rest ih =>
    intro res
    show (rest.foldl (fun res p => append_at res p.2 p.1)
        (append_at res p.2 p.1)).length = res.length
    rw [ih (append_at res p.2 p.1), append_at_length]

/-- Membership in a group is preserved by the partition fold. -/
theorem partition_foldl_mem (pairs : List (ℕ × ℕ)) :
    ∀ (res : List (List ℕ)) (j v : ℕ), v ∈ res.getD j [] →
      v ∈ (pairs.foldl (fun res p => append_at res p.2 p.1) res).getD j [] := by
  induction pairs with
  | nil => intro res j v hv; exact hv
  | cons p rest ih =>
    intro res j v hv
    exact ih (append_at res p.2 p.1) j v (append_at_mem res p.2 p.1 j v hv)

/-- Every pair `(v, x)` fed to the partition fold with `x` in range lands `v`
in group `x`. -/
theorem partition_foldl_covers (pairs : List (ℕ × ℕ)) :
    ∀ (res : List (List ℕ)) (v x : ℕ), (v, x) ∈ pairs → x < res.length →
      v ∈ (pairs.foldl (fun res p => append_at res p.2 p.1) res).getD x [] := by
  induction pairs with
  | nil => intro res v x hvx; cases hvx
  | cons p rest ih =>
    intro res v x hvx hx
    rcases List.mem_cons.mp hvx with rfl | hmem
    · exact partition_foldl_mem rest (append_at res x v) x v
        (by rw [append_at_getD_eq res x v hx]
            exact List.mem_append_right _ (List.mem_singleton_self v))
    · exact ih (append_at res p.2 p.1) v x hmem (by rw [append_at_length]; exact hx)

/-- Every member of a group after the partition fold was in the initial
groups or is the first component of a consumed pair. -/
theorem partition_foldl_mem_inv (pairs : List (ℕ × ℕ)) :
    ∀ (res : List (List ℕ)) (j v : ℕ),
      v ∈ (pairs.foldl (fun res p => append_at res p.2 p.1) res).getD j [] →
      v ∈ res.getD j [] ∨ ∃ x, (v, x) ∈ pairs := by
  induction pairs with
  | nil => intro res j v hv; exact Or.inl hv
  | cons p rest ih =>
    intro res j v hv
    rcases ih (append_at res p.2 p.1) j v hv with h | ⟨x, hx⟩
    · rcases append_at_mem_inv res p.2 p.1 j v h with h' | h'
      · exact Or.inl h'
      · exact Or.inr ⟨p.2, by rw [h']; exact List.mem_cons_self p rest⟩
    · exact Or.inr ⟨x, List.mem_cons_of_mem p hx⟩

/-- A group of the empty initial partition is empty. -/
theorem replicate_getD_nil (k j : ℕ) :
    (List.replicate k ([] : List ℕ)).getD j [] = [] := by
  induction k generalizing j with
  | zero => cases j <;> rfl
  | succ k ih =>
    cases j with
    | zero => rfl
    | succ j => exact ih j

/-- Any element of a list paired with an equally long draw list appears in
the zip, with its draw appearing in the draw list. -/
theorem mem_zip_of_mem (l1 l2 : List ℕ) (v : ℕ) (hv : v ∈ l1)
    (hlen : l2.length = l1.length) :
    ∃ x, (v, x) ∈ l1.zip l2 ∧ x ∈ l2 := by
  induction l1 generalizing l2 with
  | nil => cases hv
  | cons a t ih =>
    cases l2 with
    | nil => simp at hlen
    | cons b u =>
      rcases List.mem_cons.mp hv with rfl | hmem
      · exact ⟨b, List.mem_cons_self _ _, List.mem_cons_self b u⟩
      · rcases ih u hmem (by simpa using hlen) with ⟨x, hx1, hx2⟩
        exact ⟨x, List.mem_cons_of_mem _ hx1, List.mem_cons_of_mem b hx2⟩

/-- `random_partition` returns exactly `k` groups. -/
theorem random_partition_length (k : ℕ) (iterable choices : List ℕ) :
    (random_partition k iterable choices).length = k := by
  unfold random_partition
  rw [partition_foldl_length, List.length_replicate]

/-- Every element of `iterable` whose draw is in range lands in the group the
draw selects. -/
theorem random_partition_covers (k : ℕ) (iterable choices : List ℕ)
    (v x : ℕ) (hvx : (v, x) ∈ iterable.zip choices) (hx : x < k) :
    v ∈ (random_partition k iterable choices).getD x [] := by
  unfold random_partition
  exact partition_foldl_covers _ _ v x hvx (by rw [List.length_replicate]; exact hx)

/-- Every listed element of a `random_partition` group comes from the
iterable. -/
theorem random_partition_sound (k : ℕ) (iterable choices : List ℕ)
    (j v : ℕ) (hv : v ∈ (random_partition k iterable choices).getD j []) :
    v ∈ iterable := by
  unfold random_partition at hv
  rcases partition_foldl_mem_inv _ _ j v hv with h | ⟨x, hx⟩
  · rw [replicate_getD_nil] at h
    cases h
  · exact (List.of_mem_zip hx).1

/-- Pairwise concatenation of two equally indexed group lists, at the level
of `getD`. -/
theorem zip_concat_getD (g1 g2 : List (List ℕ)) (x : ℕ)
    (h1 : x < g1.length) (h2 : x < g2.length) :
    ((g1.zip g2).map (fun z => z.1 ++ z.2)).getD x []
      = g1.getD x [] ++ g2.getD x [] := by
  induction g1 generalizing g2 x with
  | nil => simp at h1
  | cons a t ih =>
    cases g2 with
    | nil => simp at h2
    | cons b u =>
      cases x with
      | zero => rfl
      | succ x =>
        show ((t.zip u).map (fun z => z.1 ++ z.2)).getD x []
            = t.getD x [] ++ u.getD x []
        exact ih u x (by simpa using h1) (by simpa using h2)

set_option linter.unusedVariables false in
/-- C9: for `K ≥ 1`, with two permutations of the `G` gene indices and
in-range draw streams of matching lengths, `create_groups` returns exactly
`K` lists, every listed index is `< G`, and every gene index `< G` appears in
at least one list. -/
theorem create_groups_covers (K G : ℕ) (perm1 choices1 perm2 choices2 : List ℕ)
    (hK : 1 ≤ K)
    (hp1 : perm1.Perm (List.range G)) (hp2 : perm2.Perm (List.range G))
    (hlen1 : choices1.length = perm1.length)
    (hlen2 : choices2.length = perm2.length)
    (hc1 : ∀ c ∈ choices1, c < K) (hc2 : ∀ c ∈ choices2, c < K) :
    (create_groups K G perm1 choices1 perm2 choices2).length = K ∧
    (∀ l ∈ create_groups K G perm1 choices1 perm2 choices2, ∀ v ∈ l, v < G) ∧
    (∀ g, g < G → ∃ l ∈ create_groups K G perm1 choices1 perm2 choices2, g ∈ l) := by
  have hg1len : (random_partition K perm1 choices1).length = K :=
    random_partition_length K perm1 choices1
  have hg2len : (random_partition K perm2 choices2).length = K :=
    random_partition_length K perm2 choices2
  have hcglen : (create_groups K G perm1 choices1 perm2 choices2).length = K := by
    unfold create_groups
    rw [List.length_map, List.length_zip, hg1len, hg2len, Nat.min_self]
  refine ⟨hcglen, ?_, ?_⟩
  · intro l hl v hv
    unfold create_groups at hl
    rcases List.mem_map.mp hl with ⟨z, hz, hzl⟩
    have hz1 := (List.of_mem_zip hz).1
    have hz2 := (List.of_mem_zip hz).2
    rcases hzl with rfl
    have hv' : v ∈ z.1 ∨ v ∈ z.2 := List.mem_append.mp hv
    have hvperm : v ∈ perm1 ∨ v ∈ perm2 := by
      rcases hv' with h | h
      · rcases List.mem_iff_getElem.mp hz1 with ⟨j, hj, hget⟩
        have : v ∈ (random_partition K perm1 choices1).getD j [] := by
          rw [List.getD_eq_getElem _ _ hj, hget]
          exact h
        exact Or.inl (random_partition_sound K perm1 choices1 j v this)
      · rcases List.mem_iff_getElem.mp hz2 with ⟨j, hj, hget⟩
        have : v ∈ (random_partition K perm2 choices2).getD j [] := by
          rw [List.getD_eq_getElem _ _ hj, hget]
          exact h
        exact Or.inr (random_partition_sound K perm2 choices2 j v this)
    rcases hvperm with h | h
    · exact List.mem_range.mp (hp1.mem_iff.mp h)
    · exact List.mem_range.mp (hp2.mem_iff.mp h)
  · intro g hg
    have hgperm : g ∈ perm1 := hp1.mem_iff.mpr (List.mem_range.mpr hg)
    rcases mem_zip_of_mem perm1 choices1 g hgperm hlen1 with ⟨x, hx1, hx2⟩
    have hxK : x < K := hc1 x hx2
    have hmem1 : g ∈ (random_partition K perm1 choices1).getD x [] :=
      random_partition_covers K perm1 choices1 g x hx1 hxK
    have hgetD : (create_groups K G perm1 choices1 perm2 choices2).getD x []
        = (random_partition K perm1 choices1).getD x []
          ++ (random_partition K perm2 choices2).getD x [] := by
      unfold create_groups
      exact zip_concat_getD _ _ x (by rw [hg1len]; exact hxK)
        (by rw [hg2len]; exact hxK)
    refine ⟨(create_groups K G perm1 choices1 perm2 choices2).getD x [], ?_, ?_⟩
    · have hxlen : x < (create_groups K G perm1 choices1 perm2 choices2).length := by
        rw [hcglen]; exact hxK
      rw [List.getD_eq_getElem _ _ hxlen]
      exact List.getElem_mem hxlen
    · rw [hgetD]
      exact List.mem_append_left _ hmem1

/-- Witness for C9: `K = 2`, `G = 2`, permutations `[0,1]` and `[1,0]` with
draw streams `[1,0]` and `[0,0]` give the groups `[[1,1,0],[0]]`, covering
both genes. -/
theorem create_groups_covers_witness :
    (1 ≤ 2 ∧ ([0, 1] : List ℕ).Perm (List.range 2) ∧
      ([1, 0] : List ℕ).Perm (List.range 2)) ∧
    (∀ g, g < 2 → ∃ l ∈ create_groups 2 2 [0, 1] [1, 0] [1, 0] [0, 0], g ∈ l) ∧
    create_groups 2 2 [0, 1] [1, 0] [1, 0] [0, 0] = [[1, 1, 0], [0]] :=
  ⟨⟨by decide, by decide, by decide⟩,
   (create_groups_covers 2 2 [0, 1] [1, 0] [1, 0] [0, 0] (by decide) (by decide)
     (by decide) (by decide) (by decide) (by decide) (by decide)).2.2,
   by decide⟩

end Prosstt
